import Mathlib

/-!
Verification of the FreeDict generator's TEI extraction core
(`freedict-generator-lite.py`): XML tree model, namespace stripping,
XInclude resolution, superEntry flattening, the recursive path-based
entry/sense extraction, and headword aggregation.

XML elements are modelled shallowly: a tag, the one attribute the
program reads (`href`), the element's direct text (`Element.text`,
`None` when absent), and the ordered list of child elements.  File
parsing (`ElementTree.parse`) is modelled by an oracle `fs` mapping a
filename to the parsed root element (`none` = parse/IO failure).
Python exceptions (`TypeError` on a missing `href`, `ValueError` from
`list.remove`) are modelled by `Option`.
-/

namespace Freedict

/-- An XML element as the program sees it: tag (qualified name in
`\x7buri\x7dlocal` form), optional `href` attribute, optional direct text,
ordered children. -/
inductive Elem : Type where
  | mk (tag : String) (href : Option String) (text : Option String)
       (children : List Elem) : Elem

def Elem.tag : Elem → String
  | .mk t _ _ _ => t

def Elem.href : Elem → Option String
  | .mk _ h _ _ => h

def Elem.text : Elem → Option String
  | .mk _ _ x _ => x

def Elem.children : Elem → List Elem
  | .mk _ _ _ cs => cs

mutual

def elemBEq : Elem → Elem → Bool
  | .mk t1 h1 x1 c1, .mk t2 h2 x2 c2 =>
    t1 == t2 && h1 == h2 && x1 == x2 && elemListBEq c1 c2

def elemListBEq : List Elem → List Elem → Bool
  | [], [] => true
  | _ :: _, [] => false
  | [], _ :: _ => false
  | a :: as, b :: bs => elemBEq a b && elemListBEq as bs

end

mutual

theorem elemBEq_eq : ∀ a b : Elem, elemBEq a b = true ↔ a = b
  | .mk t1 h1 x1 c1, .mk t2 h2 x2 c2 => by
    simp [elemBEq, elemListBEq_eq c1 c2, Elem.mk.injEq, and_assoc]

theorem elemListBEq_eq : ∀ a b : List Elem, elemListBEq a b = true ↔ a = b
  | [], [] => by simp [elemListBEq]
  | _ :: _, [] => by simp [elemListBEq]
  | [], _ :: _ => by simp [elemListBEq]
  | a :: as, b :: bs => by
    simp [elemListBEq, elemBEq_eq a b, elemListBEq_eq as bs]

end

instance : BEq Elem := ⟨elemBEq⟩

instance : LawfulBEq Elem where
  eq_of_beq h := (elemBEq_eq _ _).1 h
  rfl := (elemBEq_eq _ _).2 rfl

instance : DecidableEq Elem := fun a b => decidable_of_iff _ (elemBEq_eq a b)

/-- The TEI namespace marker on qualified tags
(`element.tag.startswith("\x7bhttp://www.tei-c.org/ns/1.0\x7d")`). -/
def teiNS : String := "\x7bhttp://www.tei-c.org/ns/1.0\x7d"

/-- The qualified tag of an XInclude inclusion directive. -/
def xincludeTag : String := "\x7bhttp://www.w3.org/2001/XInclude\x7dinclude"

/-- The qualified tag of a TEI superEntry element. -/
def superEntryTag : String := teiNS ++ "superEntry"

/-- `remove_namespace`: strips the TEI namespace marker from one
element's tag; an element whose tag lacks the marker keeps its tag and
an `ERROR:` line is written to stderr (second component `true`).
Python's `tag.startswith(p)` and `tag[len(p):]` are expressed on the
tag's character sequence (`String.data`). -/
def remove_namespace : Elem → Elem × Bool
  | .mk tg hr tx cs =>
    if teiNS.data.isPrefixOf tg.data then
      (.mk ⟨tg.data.drop teiNS.length⟩ hr tx cs, false)
    else
      (.mk tg hr tx cs, true)

mutual

/-- `element.findall(".//tag")`: all strict descendants with the given
tag, in document order. -/
def findallDesc (tg : String) : Elem → List Elem
  | .mk _ _ _ cs => findallDescList tg cs

def findallDescList (tg : String) : List Elem → List Elem
  | [] => []
  | c :: cs =>
    (if c.tag = tg then [c] else []) ++ findallDesc tg c ++ findallDescList tg cs

end

/-- `handle_includes(parent, path)`: gather, over the direct children
that are inclusion directives, the top-level children of each referenced
file's root; then `parent.clear()` (dropping text, attributes and all
children) and extend with the gathered elements.  `none` models the
exception on a missing `href` attribute or an unreadable file. -/
def handle_includes (fs : String → Option Elem) (parent : Elem)
    (path : String) : Option Elem := do
  let entries ← parent.children.foldlM
    (fun acc subtree =>
      if subtree.tag = xincludeTag then do
        let hrefv ← subtree.href
        let root ← fs (path ++ "/" ++ hrefv)
        pure (acc ++ root.children)
      else pure acc)
    []
  pure (.mk parent.tag none none entries)

/-- `handle_super_entries(parent)`: for each descendant tagged
superEntry (snapshot taken up front, document order), append its
children to the parent and remove the superEntry from the parent's
direct children.  `none` models the `ValueError` raised when the
superEntry is not a direct child of the parent. -/
def handle_super_entries (parent : Elem) : Option Elem :=
  (findallDesc superEntryTag parent).foldlM
    (fun p sup =>
      let p2 := Elem.mk p.tag p.href p.text (p.children ++ sup.children)
      if p2.children.contains sup then
        some (Elem.mk p2.tag p2.href p2.text (p2.children.erase sup))
      else none)
    parent

/-- `preprocess(element, path)`: strip the element's namespace; on a
`body` element resolve inclusion directives (when any descendant
directive exists) and flatten superEntries (when any descendant
superEntry exists); then recurse into the children.  The `fuel`
argument bounds the recursion depth, which Python leaves unbounded;
`none` on exhaustion. -/
def preprocess (fs : String → Option Elem) :
    Nat → Elem → String → Option Elem
  | 0, _, _ => none
  | fuel + 1, e, path => do
    let el := (remove_namespace e).1
    let el2 ←
      if el.tag = "body" ∧ 0 < (findallDesc xincludeTag el).length then
        handle_includes fs el path
      else pure el
    let el3 ←
      if el2.tag = "body" ∧ 0 < (findallDesc superEntryTag el2).length then
        handle_super_entries el2
      else pure el2
    let cs ← el3.children.mapM (fun c => preprocess fs fuel c path)
    pure (Elem.mk el3.tag el3.href el3.text cs)

/-- `DictSense`: quotes and defs start as `None` and are upgraded to a
one-element list on first append; appended texts may themselves be
`None` (an element with no direct text). -/
structure DictSense where
  quotes : Option (List (Option String))
  defs : Option (List (Option String))
deriving DecidableEq

/-- `DictSense()` constructor. -/
def DictSense.init : DictSense := ⟨none, none⟩

/-- `DictEntry`: the structured record extracted from one entry
subtree. -/
structure DictEntry where
  orth : Option (List String)
  pron : Option (List String)
  gen : Option (List (Option String))
  pos : Option (List String)
  senses : Option (List DictSense)
deriving DecidableEq

/-- `DictEntry()` constructor. -/
def DictEntry.init : DictEntry := ⟨none, none, none, none, none⟩

mutual

/-- `collect_sense(element, sense, prefix)`: push the element's tag on
the dotted path; at exactly `entry.sense.cit.quote` append the direct
text (even if absent) to the quotes, at exactly `entry.sense.sense.def`
append it to the defs; recurse into the children with the extended
path. -/
def collect_sense : Elem → DictSense → List String → DictSense
  | .mk tg _ tx cs, sense, pfx =>
    let path := String.intercalate "." (pfx ++ [tg])
    let sense :=
      if path = "entry.sense.cit.quote" then
        { sense with quotes := some (sense.quotes.getD [] ++ [tx]) }
      else if path = "entry.sense.sense.def" then
        { sense with defs := some (sense.defs.getD [] ++ [tx]) }
      else sense
    collectSenseList cs sense (pfx ++ [tg])

def collectSenseList : List Elem → DictSense → List String → DictSense
  | [], sense, _ => sense
  | c :: cs, sense, pfx => collectSenseList cs (collect_sense c sense pfx) pfx

end

mutual

/-- `collect(element, output, prefix)`: push the element's tag on the
dotted path; at `entry.form.orth` / `entry.form.pron` append the direct
text when present, at `entry.gramGrp.gen` append the direct text
unconditionally, at `entry.gramGrp.pos` append the direct text when
present and not already in the list; at `entry.sense` pop the path,
delegate the whole subtree to `collect_sense`, append the produced
sense, and return without the generic recursion; otherwise (and after
the four field appends) recurse into the children. -/
def collect : Elem → DictEntry → List String → DictEntry
  | .mk tg hr tx cs, output, pfx =>
    let path := String.intercalate "." (pfx ++ [tg])
    if path = "entry.form.orth" then
      let output :=
        match tx with
        | none => output
        | some s => { output with orth := some (output.orth.getD [] ++ [s]) }
      collectList cs output (pfx ++ [tg])
    else if path = "entry.form.pron" then
      let output :=
        match tx with
        | none => output
        | some s => { output with pron := some (output.pron.getD [] ++ [s]) }
      collectList cs output (pfx ++ [tg])
    else if path = "entry.gramGrp.gen" then
      let output := { output with gen := some (output.gen.getD [] ++ [tx]) }
      collectList cs output (pfx ++ [tg])
    else if path = "entry.gramGrp.pos" then
      let output :=
        match tx with
        | none => output
        | some s =>
          match output.pos with
          | none => { output with pos := some [s] }
          | some l =>
            if s ∈ l then output else { output with pos := some (l ++ [s]) }
      collectList cs output (pfx ++ [tg])
    else if path = "entry.sense" then
      let sense := collect_sense (.mk tg hr tx cs) DictSense.init pfx
      { output with senses := some (output.senses.getD [] ++ [sense]) }
    else
      collectList cs output (pfx ++ [tg])

def collectList : List Elem → DictEntry → List String → DictEntry
  | [], output, _ => output
  | c :: cs, output, pfx => collectList cs (collect c output pfx) pfx

end

/-- One step of the headword-aggregation loop: skip an entry with no
orthography; otherwise, for each of its orthographic forms in order,
append the entry to that form's bucket, creating the bucket at the end
of the (insertion-ordered) index when the key is new. -/
def merge_by_orth (m : List (String × List DictEntry)) (entry : DictEntry) :
    List (String × List DictEntry) :=
  match entry.orth with
  | none => m
  | some orths =>
    orths.foldl
      (fun m o =>
        if (m.lookup o).isSome then
          m.map (fun kv => if kv.1 = o then (kv.1, kv.2 ++ [entry]) else kv)
        else m ++ [(o, [entry])])
      m

/-- The headword aggregator: fold the extracted entries, in encounter
order, into the insertion-ordered Headword Index. -/
def aggregate (es : List DictEntry) : List (String × List DictEntry) :=
  es.foldl merge_by_orth []

/-- Bucket of one orthographic form in the Headword Index. -/
def bucket (m : List (String × List DictEntry)) (k : String) :
    List DictEntry :=
  (m.lookup k).getD []

/-! ### String path machinery

The extractors compare the dotted join of the tag path against fixed
pattern strings.  A joined path of `n` segments contains at least
`n - 1` dots, so a long enough path can never equal a fixed pattern. -/

/-- Number of dot characters in a string. -/
def dotCount (s : String) : Nat := s.data.count '.'

theorem go_append : ∀ (l : List String) (s a b : String),
    String.intercalate.go (a ++ b) s l = a ++ String.intercalate.go b s l
  | [], _, _, _ => rfl
  | c :: cs, s, a, b => by
    show String.intercalate.go (a ++ b ++ s ++ c) s cs =
      a ++ String.intercalate.go (b ++ s ++ c) s cs
    have h : a ++ b ++ s ++ c = a ++ (b ++ s ++ c) := by
      simp only [String.append_assoc]
    rw [h, go_append cs]

theorem intercalate_cons_cons (s a b : String) (l : List String) :
    String.intercalate s (a :: b :: l) = a ++ s ++ String.intercalate s (b :: l) := by
  show String.intercalate.go (a ++ s ++ b) s l =
    a ++ s ++ String.intercalate.go b s l
  exact go_append l s (a ++ s) b

theorem dotCount_append (a b : String) :
    dotCount (a ++ b) = dotCount a + dotCount b := by
  simp [dotCount, String.data_append, List.count_append]

theorem dotCount_intercalate_ge : ∀ (l : List String),
    l.length - 1 ≤ dotCount (String.intercalate "." l) := by
  have go_ge : ∀ (cs : List String) (acc : String),
      dotCount acc + cs.length ≤ dotCount (String.intercalate.go acc "." cs) := by
    intro cs
    induction cs with
    | nil => intro acc; simp [String.intercalate.go]
    | cons c cs ih =>
      intro acc
      show dotCount acc + (cs.length + 1) ≤
        dotCount (String.intercalate.go (acc ++ "." ++ c) "." cs)
      have h := ih (acc ++ "." ++ c)
      rw [dotCount_append, dotCount_append] at h
      have hd : dotCount "." = 1 := by decide
      omega
  intro l
  match l with
  | [] => simp
  | a :: as =>
    have h := go_ge as a
    show (a :: as).length - 1 ≤ dotCount (String.intercalate.go a "." as)
    simp only [List.length_cons]
    omega

/-- A dotted join of more than `dotCount p + 1` segments never equals
the pattern `p`. -/
theorem intercalate_ne (l : List String) (p : String)
    (h : dotCount p + 1 < l.length) : String.intercalate "." l ≠ p := by
  intro e
  have hg := dotCount_intercalate_ge l
  rw [e] at hg
  omega

theorem string_append_left_inj (a t u : String) : a ++ t = a ++ u ↔ t = u := by
  constructor
  · intro h
    have h2 : (a ++ t).data = (a ++ u).data := by rw [h]
    rw [String.data_append, String.data_append] at h2
    exact String.ext (List.append_cancel_left h2)
  · intro h; rw [h]

/-! ### Depth lemmas: below path depth 3 (resp. 4) the entry (resp.
sense) extractor matches nothing and leaves its accumulator intact. -/

mutual

theorem collect_deep : ∀ (e : Elem) (output : DictEntry) (pfx : List String),
    3 ≤ pfx.length → collect e output pfx = output
  | .mk tg hr tx cs, output, pfx, h => by
    have hne : ∀ p : String, dotCount p ≤ 2 →
        String.intercalate "." (pfx ++ [tg]) ≠ p := by
      intro p hp
      refine intercalate_ne _ _ ?_
      simp only [List.length_append, List.length_cons, List.length_nil]
      omega
    simp only [collect]
    rw [if_neg (hne _ (by decide)), if_neg (hne _ (by decide)),
      if_neg (hne _ (by decide)), if_neg (hne _ (by decide)),
      if_neg (hne _ (by decide))]
    refine collectList_deep cs output (pfx ++ [tg]) ?_
    simp only [List.length_append, List.length_cons, List.length_nil]
    omega

theorem collectList_deep : ∀ (cs : List Elem) (output : DictEntry)
    (pfx : List String), 3 ≤ pfx.length → collectList cs output pfx = output
  | [], _, _, _ => rfl
  | c :: cs, output, pfx, h => by
    rw [collectList, collect_deep c output pfx h,
      collectList_deep cs output pfx h]

end

mutual

theorem collect_sense_deep : ∀ (e : Elem) (sense : DictSense)
    (pfx : List String), 4 ≤ pfx.length → collect_sense e sense pfx = sense
  | .mk tg hr tx cs, sense, pfx, h => by
    have hne : ∀ p : String, dotCount p ≤ 3 →
        String.intercalate "." (pfx ++ [tg]) ≠ p := by
      intro p hp
      refine intercalate_ne _ _ ?_
      simp only [List.length_append, List.length_cons, List.length_nil]
      omega
    simp only [collect_sense]
    rw [if_neg (hne _ (by decide)), if_neg (hne _ (by decide))]
    refine collectSenseList_deep cs sense (pfx ++ [tg]) ?_
    simp only [List.length_append, List.length_cons, List.length_nil]
    omega

theorem collectSenseList_deep : ∀ (cs : List Elem) (sense : DictSense)
    (pfx : List String), 4 ≤ pfx.length → collectSenseList cs sense pfx = sense
  | [], _, _, _ => rfl
  | c :: cs, sense, pfx, h => by
    rw [collectSenseList, collect_sense_deep c sense pfx h,
      collectSenseList_deep cs sense pfx h]

end

/-- Claim C1: on the entry subtree
`<entry><form><orth>cat</orth></form><gramGrp><pos>n</pos></gramGrp><sense><cit><quote>Example.</quote></cit><sense><def>A feline.</def></sense></sense></entry>`,
`collect` with a fresh `DictEntry` and empty path prefix produces
orthography `["cat"]`, part-of-speech `["n"]`, and exactly one sense
with quotes `["Example."]` and defs `["A feline."]`, with pronunciation
and gender absent. -/
theorem claim_C1 :
    collect
      (.mk "entry" none none
        [ .mk "form" none none [.mk "orth" none (some "cat") []]
        , .mk "gramGrp" none none [.mk "pos" none (some "n") []]
        , .mk "sense" none none
            [ .mk "cit" none none [.mk "quote" none (some "Example.") []]
            , .mk "sense" none none [.mk "def" none (some "A feline.") []] ] ])
      DictEntry.init [] =
      { orth := some ["cat"], pron := none, gen := none, pos := some ["n"]
      , senses := some [{ quotes := some [some "Example."]
                        , defs := some [some "A feline."] }] } := by
  decide

/-- Claim C3: an element with no direct text at path `entry.form.orth`,
`entry.form.pron` or `entry.gramGrp.pos` contributes nothing at all to
the record (whatever its children), while an element at
`entry.gramGrp.gen` with no direct text still appends a null to the
gender list. -/
theorem claim_C3 (hr : Option String) (cs : List Elem) (output : DictEntry) :
    collect (.mk "orth" hr none cs) output ["entry", "form"] = output
    ∧ collect (.mk "pron" hr none cs) output ["entry", "form"] = output
    ∧ collect (.mk "pos" hr none cs) output ["entry", "gramGrp"] = output
    ∧ collect (.mk "gen" hr none cs) output ["entry", "gramGrp"] =
        { output with gen := some (output.gen.getD [] ++ [none]) } := by
  refine ⟨?_, ?_, ?_, ?_⟩
  · simp only [collect]
    rw [if_pos (by decide)]
    exact collectList_deep cs output _ (by decide)
  · simp only [collect]
    rw [if_neg (by decide), if_pos (by decide)]
    exact collectList_deep cs output _ (by decide)
  · simp only [collect]
    rw [if_neg (by decide), if_neg (by decide), if_neg (by decide),
      if_pos (by decide)]
    exact collectList_deep cs output _ (by decide)
  · simp only [collect]
    rw [if_neg (by decide), if_neg (by decide), if_pos (by decide)]
    exact collectList_deep cs _ _ (by decide)

/-- Claim C10: in the sense extractor the appends at
`entry.sense.cit.quote` and `entry.sense.sense.def` carry no text
guard: a quote or def element with no direct text appends a null to the
corresponding list. -/
theorem claim_C10 (hr : Option String) (cs : List Elem) (sense : DictSense) :
    collect_sense (.mk "quote" hr none cs) sense ["entry", "sense", "cit"] =
      { sense with quotes := some (sense.quotes.getD [] ++ [none]) }
    ∧ collect_sense (.mk "def" hr none cs) sense ["entry", "sense", "sense"] =
      { sense with defs := some (sense.defs.getD [] ++ [none]) } := by
  constructor
  · simp only [collect_sense]
    rw [if_pos (by decide)]
    exact collectSenseList_deep cs _ _ (by decide)
  · simp only [collect_sense]
    rw [if_neg (by decide), if_pos (by decide)]
    exact collectSenseList_deep cs _ _ (by decide)

end Freedict

namespace Freedict

mutual

theorem collect_senses_pres : ∀ (e : Elem) (output : DictEntry)
    (pfx : List String), 2 ≤ pfx.length →
    (collect e output pfx).senses = output.senses
  | .mk tg hr tx cs, output, pfx, h => by
    have hS : String.intercalate "." (pfx ++ [tg]) ≠ "entry.sense" := by
      refine intercalate_ne _ _ ?_
      simp only [List.length_append, List.length_cons, List.length_nil]
      have : dotCount "entry.sense" = 1 := by decide
      omega
    have hlen : 2 ≤ (pfx ++ [tg]).length := by
      simp only [List.length_append, List.length_cons, List.length_nil]
      omega
    simp only [collect, if_neg hS]
    split_ifs with h1 h2 h3 h4
    · rw [collectList_senses_pres cs _ _ hlen]
      cases tx <;> rfl
    · rw [collectList_senses_pres cs _ _ hlen]
      cases tx <;> rfl
    · rw [collectList_senses_pres cs _ _ hlen]
    · rw [collectList_senses_pres cs _ _ hlen]
      cases tx with
      | none => rfl
      | some s =>
        cases output.pos with
        | none => rfl
        | some l => by_cases hs : s ∈ l <;> simp [hs]
    · rw [collectList_senses_pres cs _ _ hlen]

theorem collectList_senses_pres : ∀ (cs : List Elem) (output : DictEntry)
    (pfx : List String), 2 ≤ pfx.length →
    (collectList cs output pfx).senses = output.senses
  | [], _, _, _ => rfl
  | c :: cs, output, pfx, h => by
    rw [collectList, collectList_senses_pres cs _ _ h,
      collect_senses_pres c _ _ h]

end

end Freedict

namespace Freedict

theorem collect_level1_sense (hr tx : Option String) (cs' : List Elem)
    (output : DictEntry) :
    collect (.mk "sense" hr tx cs') output ["entry"] =
      { output with senses := some ((output.senses).getD [] ++
          [collect_sense (.mk "sense" hr tx cs') DictSense.init ["entry"]]) } := by
  simp only [collect]
  rw [if_neg (by decide), if_neg (by decide), if_neg (by decide),
    if_neg (by decide), if_pos (by decide)]

theorem collect_level1_other (tg : String) (hr tx : Option String)
    (cs' : List Elem) (output : DictEntry) (htg : tg ≠ "sense") :
    (collect (.mk tg hr tx cs') output ["entry"]).senses = output.senses := by
  have hone : String.intercalate "." [tg] = tg := rfl
  have hpath : String.intercalate "." (["entry"] ++ [tg]) = ("entry" ++ ".") ++ tg := by
    rw [show (["entry"] ++ [tg] : List String) = "entry" :: tg :: [] from rfl,
      intercalate_cons_cons, hone]
  have hne : String.intercalate "." (["entry"] ++ [tg]) ≠ "entry.sense" := by
    rw [hpath]
    intro hc
    apply htg
    rw [show ("entry.sense" : String) = ("entry" ++ ".") ++ "sense" from by decide] at hc
    exact (string_append_left_inj _ _ _).1 hc
  have hlen : 2 ≤ (["entry"] ++ [tg]).length := by simp
  simp only [collect, if_neg hne]
  split_ifs with h1 h2 h3 h4
  · rw [collectList_senses_pres cs' _ _ hlen]; cases tx <;> rfl
  · rw [collectList_senses_pres cs' _ _ hlen]; cases tx <;> rfl
  · rw [collectList_senses_pres cs' _ _ hlen]
  · rw [collectList_senses_pres cs' _ _ hlen]
    cases tx with
    | none => rfl
    | some s =>
      cases output.pos with
      | none => rfl
      | some l => by_cases hs : s ∈ l <;> simp [hs]
  · rw [collectList_senses_pres cs' _ _ hlen]

theorem collectList_level1 : ∀ (cs : List Elem) (output : DictEntry),
    ((collectList cs output ["entry"]).senses).getD [] =
      (output.senses).getD [] ++
        (cs.filter (fun c => c.tag = "sense")).map
          (fun c => collect_sense c DictSense.init ["entry"]) := by
  intro cs
  induction cs with
  | nil => intro output; simp [collectList]
  | cons c cs ih =>
    intro output
    rw [show collectList (c :: cs) output ["entry"] =
      collectList cs (collect c output ["entry"]) ["entry"] from rfl]
    rw [ih (collect c output ["entry"])]
    obtain ⟨tg, hr, tx, cs'⟩ := c
    by_cases htg : tg = "sense"
    · subst htg
      rw [collect_level1_sense]
      simp [List.filter_cons, Elem.tag]
    · rw [collect_level1_other tg hr tx cs' output htg]
      simp [List.filter_cons, Elem.tag, htg]

end Freedict

namespace Freedict

theorem claim_C2 (hr tx : Option String) (cs : List Elem) (output : DictEntry) :
    ((collect (.mk "entry" hr tx cs) output []).senses).getD [] =
      (output.senses).getD [] ++
        (cs.filter (fun c => c.tag = "sense")).map
          (fun c => collect_sense c DictSense.init ["entry"])
    ∧ (∀ (s : DictSense) (hr2 t : Option String) (cs2 : List Elem),
        collect_sense (.mk "quote" hr2 t cs2) s ["entry", "sense", "cit"] =
          { s with quotes := some (s.quotes.getD [] ++ [t]) })
    ∧ (∀ (s : DictSense) (hr2 t : Option String) (cs2 : List Elem),
        collect_sense (.mk "def" hr2 t cs2) s ["entry", "sense", "sense"] =
          { s with defs := some (s.defs.getD [] ++ [t]) }) := by
  refine ⟨?_, ?_, ?_⟩
  · simp only [collect]
    rw [if_neg (by decide), if_neg (by decide), if_neg (by decide),
      if_neg (by decide), if_neg (by decide)]
    exact collectList_level1 cs output
  · intro s hr2 t cs2
    simp only [collect_sense]
    rw [if_pos (by decide)]
    exact collectSenseList_deep cs2 _ _ (by decide)
  · intro s hr2 t cs2
    simp only [collect_sense]
    rw [if_neg (by decide), if_pos (by decide)]
    exact collectSenseList_deep cs2 _ _ (by decide)

theorem nodup_append_singleton {l : List String} {s : String}
    (h : l.Nodup) (hs : s ∉ l) : (l ++ [s]).Nodup := by
  simp [List.nodup_append, h, hs]

mutual

theorem collect_pos_nodup : ∀ (e : Elem) (output : DictEntry)
    (pfx : List String), ((output.pos).getD []).Nodup →
    (((collect e output pfx).pos).getD []).Nodup
  | .mk tg hr tx cs, output, pfx, h => by
    simp only [collect]
    split_ifs with h1 h2 h3 h4 h5
    · refine collectList_pos_nodup cs _ _ ?_
      cases tx <;> exact h
    · refine collectList_pos_nodup cs _ _ ?_
      cases tx <;> exact h
    · exact collectList_pos_nodup cs _ _ h
    · refine collectList_pos_nodup cs _ _ ?_
      cases tx with
      | none => exact h
      | some s =>
        cases hp : output.pos with
        | none => simp
        | some l =>
          rw [hp] at h
          by_cases hs : s ∈ l
          · simpa [hs, hp] using h
          · simpa [hs, hp] using nodup_append_singleton h hs
    · exact h
    · exact collectList_pos_nodup cs _ _ h

theorem collectList_pos_nodup : ∀ (cs : List Elem) (output : DictEntry)
    (pfx : List String), ((output.pos).getD []).Nodup →
    (((collectList cs output pfx).pos).getD []).Nodup
  | [], _, _, h => h
  | c :: cs, output, pfx, h => by
    rw [collectList]
    exact collectList_pos_nodup cs _ _ (collect_pos_nodup c _ _ h)

end

theorem claim_C4 :
    (∀ (e : Elem) (output : DictEntry) (pfx : List String),
      ((output.pos).getD []).Nodup →
      (((collect e output pfx).pos).getD []).Nodup)
    ∧ (collect
        (.mk "entry" none none
          [ .mk "gramGrp" none none
              [.mk "pos" none (some "n") [], .mk "pos" none (some "n") []] ])
        DictEntry.init []).pos = some ["n"] := by
  exact ⟨collect_pos_nodup, by decide⟩

theorem claim_C4_witness :
    (((DictEntry.init).pos).getD []).Nodup ∧
    (((collect (.mk "entry" none none
        [ .mk "gramGrp" none none
            [.mk "pos" none (some "n") [], .mk "pos" none (some "n") []] ])
        DictEntry.init []).pos).getD []).Nodup := by
  exact ⟨by decide, claim_C4.1 _ DictEntry.init [] (by decide)⟩

end Freedict

namespace Freedict

theorem lookup_map_update (o k : String) (entry : DictEntry) :
    ∀ (m : List (String × List DictEntry)),
    (m.map (fun kv => if kv.1 = o then (kv.1, kv.2 ++ [entry]) else kv)).lookup k =
      if k = o then (m.lookup k).map (fun l => l ++ [entry]) else m.lookup k := by
  intro m
  induction m with
  | nil => by_cases hk : k = o <;> simp [hk]
  | cons a m ih =>
    obtain ⟨ak, av⟩ := a
    by_cases hao : ak = o
    · subst hao
      by_cases hk : k = ak
      · subst hk
        simp [List.lookup_cons, ih]
      · simp [List.lookup_cons, hk, ih, beq_false_of_ne hk]
    · by_cases hk : k = ak
      · subst hk
        simp [List.lookup_cons, hao, Ne.symm hao]
      · simp [List.lookup_cons, hao, hk, ih, beq_false_of_ne hk]

theorem lookup_append_single (k o : String) (v : List DictEntry) :
    ∀ (m : List (String × List DictEntry)),
    (m ++ [(o, v)]).lookup k =
      ((m.lookup k).rec (if k = o then some v else none) (fun x => some x)) := by
  intro m
  induction m with
  | nil =>
    by_cases hk : k = o
    · simp [List.lookup_cons, hk]
    · simp [List.lookup_cons, hk, beq_false_of_ne hk]
  | cons a m ih =>
    obtain ⟨ak, av⟩ := a
    by_cases hk : k = ak
    · subst hk; simp [List.lookup_cons]
    · simp [List.lookup_cons, beq_false_of_ne hk, ih]

end Freedict

namespace Freedict

theorem bucket_step (m : List (String × List DictEntry)) (o k : String)
    (entry : DictEntry) :
    bucket
      (if (m.lookup o).isSome then
        m.map (fun kv => if kv.1 = o then (kv.1, kv.2 ++ [entry]) else kv)
      else m ++ [(o, [entry])]) k =
      bucket m k ++ (if o = k then [entry] else []) := by
  by_cases hsome : (m.lookup o).isSome
  · rw [if_pos hsome]
    unfold bucket
    rw [lookup_map_update]
    by_cases hk : k = o
    · subst hk
      cases hl : m.lookup k with
      | none => rw [hl] at hsome; simp at hsome
      | some l => simp [hl]
    · simp [hk, Ne.symm hk]
  · rw [if_neg hsome]
    unfold bucket
    rw [lookup_append_single]
    by_cases hk : k = o
    · subst hk
      cases hl : m.lookup k with
      | none => simp [hl]
      | some l => rw [hl] at hsome; simp at hsome
    · cases hl : m.lookup k with
      | none => simp [hk, Ne.symm hk, hl]
      | some l => simp [hk, Ne.symm hk, hl]

theorem bucket_fold_orths (entry : DictEntry) (k : String) :
    ∀ (orths : List String) (m : List (String × List DictEntry)),
    bucket
      (orths.foldl
        (fun m o =>
          if (m.lookup o).isSome then
            m.map (fun kv => if kv.1 = o then (kv.1, kv.2 ++ [entry]) else kv)
          else m ++ [(o, [entry])])
        m) k =
      bucket m k ++ (orths.filter (fun o => o = k)).map (fun _ => entry) := by
  intro orths
  induction orths with
  | nil => intro m; simp
  | cons o os ih =>
    intro m
    rw [List.foldl_cons, ih, bucket_step]
    by_cases hk : o = k <;> simp [List.filter_cons, hk]

theorem bucket_merge (m : List (String × List DictEntry)) (entry : DictEntry)
    (k : String) :
    bucket (merge_by_orth m entry) k =
      bucket m k ++
        (((entry.orth).getD []).filter (fun o => o = k)).map (fun _ => entry) := by
  unfold merge_by_orth
  cases ho : entry.orth with
  | none => simp
  | some orths => rw [bucket_fold_orths]; simp

theorem bucket_aggregate_gen (k : String) :
    ∀ (es : List DictEntry) (m : List (String × List DictEntry)),
    bucket (es.foldl merge_by_orth m) k =
      bucket m k ++
        es.flatMap
          (fun e => (((e.orth).getD []).filter (fun o => o = k)).map (fun _ => e)) := by
  intro es
  induction es with
  | nil => intro m; simp
  | cons e es ih =>
    intro m
    rw [List.foldl_cons, ih, bucket_merge]
    simp [List.append_assoc]

theorem mem_step_orth (entry : DictEntry) (os : List String)
    (ho : entry.orth = some os) (o : String)
    (m : List (String × List DictEntry))
    (hm : ∀ kv ∈ m, ∀ x ∈ kv.2, x.orth ≠ none) :
    ∀ kv ∈ (if (m.lookup o).isSome then
        m.map (fun kv => if kv.1 = o then (kv.1, kv.2 ++ [entry]) else kv)
      else m ++ [(o, [entry])]), ∀ x ∈ kv.2, x.orth ≠ none := by
  by_cases hsome : (m.lookup o).isSome
  · rw [if_pos hsome]
    intro kv hkv x hx
    obtain ⟨kv0, hkv0, hkveq⟩ := List.mem_map.1 hkv
    by_cases h0 : kv0.1 = o
    · rw [if_pos h0] at hkveq
      subst hkveq
      rcases List.mem_append.1 hx with hx1 | hx2
      · exact hm kv0 hkv0 x hx1
      · rw [List.mem_singleton.1 hx2, ho]; simp
    · rw [if_neg h0] at hkveq
      subst hkveq
      exact hm kv0 hkv0 x hx
  · rw [if_neg hsome]
    intro kv hkv x hx
    rcases List.mem_append.1 hkv with hkv1 | hkv2
    · exact hm kv hkv1 x hx
    · rw [List.mem_singleton.1 hkv2] at hx
      rw [List.mem_singleton.1 hx, ho]; simp

theorem mem_merge_orth (m : List (String × List DictEntry)) (entry : DictEntry)
    (hm : ∀ kv ∈ m, ∀ x ∈ kv.2, x.orth ≠ none) :
    ∀ kv ∈ merge_by_orth m entry, ∀ x ∈ kv.2, x.orth ≠ none := by
  unfold merge_by_orth
  cases ho : entry.orth with
  | none => exact hm
  | some os =>
    have : ∀ (orths : List String) (m0 : List (String × List DictEntry)),
        (∀ kv ∈ m0, ∀ x ∈ kv.2, x.orth ≠ none) →
        ∀ kv ∈ (orths.foldl
          (fun m o =>
            if (m.lookup o).isSome then
              m.map (fun kv => if kv.1 = o then (kv.1, kv.2 ++ [entry]) else kv)
            else m ++ [(o, [entry])])
          m0), ∀ x ∈ kv.2, x.orth ≠ none := by
      intro orths
      induction orths with
      | nil => intro m0 h0; exact h0
      | cons o os2 ih =>
        intro m0 h0
        rw [List.foldl_cons]
        exact ih _ (mem_step_orth entry os ho o m0 h0)
    exact this os m hm

theorem mem_aggregate_orth (es : List DictEntry) :
    ∀ kv ∈ aggregate es, ∀ x ∈ kv.2, x.orth ≠ none := by
  unfold aggregate
  have : ∀ (es : List DictEntry) (m : List (String × List DictEntry)),
      (∀ kv ∈ m, ∀ x ∈ kv.2, x.orth ≠ none) →
      ∀ kv ∈ es.foldl merge_by_orth m, ∀ x ∈ kv.2, x.orth ≠ none := by
    intro es
    induction es with
    | nil => intro m h; exact h
    | cons e es ih =>
      intro m h
      rw [List.foldl_cons]
      exact ih _ (mem_merge_orth m e h)
  exact this es [] (by simp)

end Freedict

namespace Freedict

/-- Claim C9: in the Headword Index built by the aggregator, the bucket
of any form `k` is exactly the encounter-ordered list of entries
declaring `k` (once per declaration), and an entry with absent
orthography appears in no bucket of the index. -/
theorem claim_C9 (es : List DictEntry) (k : String) :
    bucket (aggregate es) k =
      es.flatMap
        (fun e => (((e.orth).getD []).filter (fun o => o = k)).map (fun _ => e))
    ∧ ∀ (e : DictEntry) (kv : String × List DictEntry),
        e.orth = none → kv ∈ aggregate es → e ∉ kv.2 := by
  constructor
  · show bucket (es.foldl merge_by_orth []) k = _
    rw [bucket_aggregate_gen]
    simp [bucket]
  · intro e kv he hkv hmem
    exact mem_aggregate_orth es kv hkv e hmem he

theorem claim_C9_witness :
    (DictEntry.init).orth = none
    ∧ ("run", [(⟨some ["run"], none, none, none, none⟩ : DictEntry)]) ∈
        aggregate [DictEntry.init, ⟨some ["run"], none, none, none, none⟩]
    ∧ DictEntry.init ∉ [(⟨some ["run"], none, none, none, none⟩ : DictEntry)] := by
  refine ⟨rfl, by decide, ?_⟩
  exact (claim_C9 [DictEntry.init, ⟨some ["run"], none, none, none, none⟩] "run").2
    DictEntry.init ("run", [⟨some ["run"], none, none, none, none⟩]) rfl (by decide)

/-- One inclusion directive's resolution: the referenced file's parsed
top-level children (`none` on missing `href` or unreadable file). -/
def resolveInclude (fs : String → Option Elem) (path : String) (c : Elem) :
    Option (List Elem) := do
  let hrefv ← c.href
  let root ← fs (path ++ "/" ++ hrefv)
  pure root.children

/-- Resolve a list of inclusion directives, concatenating the spliced
children in order. -/
def resolveAll (fs : String → Option Elem) (path : String) :
    List Elem → Option (List Elem)
  | [] => some []
  | c :: cs => do
    let l ← resolveInclude fs path c
    let rest ← resolveAll fs path cs
    pure (l ++ rest)

theorem includes_fold (fs : String → Option Elem) (path : String) :
    ∀ (cs : List Elem) (acc : List Elem),
    cs.foldlM
      (fun acc subtree =>
        if subtree.tag = xincludeTag then do
          let hrefv ← subtree.href
          let root ← fs (path ++ "/" ++ hrefv)
          pure (acc ++ root.children)
        else pure acc)
      acc =
    (resolveAll fs path (cs.filter (fun c => c.tag = xincludeTag))).map
      (fun ls => acc ++ ls) := by
  intro cs
  induction cs with
  | nil => intro acc; simp [resolveAll]
  | cons c cs ih =>
    intro acc
    by_cases hc : c.tag = xincludeTag
    · cases hh : c.href with
      | none =>
        simp [List.foldlM_cons, hc, hh, List.filter_cons, resolveAll,
          resolveInclude]
      | some hv =>
        cases hf : fs (path ++ "/" ++ hv) with
        | none =>
          simp [List.foldlM_cons, hc, hh, hf, List.filter_cons, resolveAll,
            resolveInclude]
        | some r =>
          cases hm : resolveAll fs path
              (cs.filter (fun c => c.tag = xincludeTag)) with
          | none =>
            simpa [List.foldlM_cons, hc, hh, hf, List.filter_cons, resolveAll,
              resolveInclude, hm] using ih (acc ++ r.children)
          | some ls =>
            simpa [List.foldlM_cons, hc, hh, hf, List.filter_cons, resolveAll,
              resolveInclude, hm, List.append_assoc] using ih (acc ++ r.children)
    · simpa [List.foldlM_cons, hc, List.filter_cons] using ih acc

/-- Claim C5: a body whose inclusion-directive children are exactly two
directives referencing files A and B resolves, via `handle_includes`,
to a body whose children are A's top-level children followed by B's, in
that order; when the spliced children are themselves no directives,
none remain among the body's children. -/
theorem claim_C5 (fs : String → Option Elem) (path : String)
    (b ia ib ra rb : Elem) (ha hb : String)
    (hfilter : b.children.filter (fun c => c.tag = xincludeTag) = [ia, ib])
    (hha : ia.href = some ha) (hhb : ib.href = some hb)
    (hfa : fs (path ++ "/" ++ ha) = some ra)
    (hfb : fs (path ++ "/" ++ hb) = some rb) :
    handle_includes fs b path =
      some (.mk b.tag none none (ra.children ++ rb.children))
    ∧ ((∀ c ∈ ra.children ++ rb.children, c.tag ≠ xincludeTag) →
       ∀ c ∈ (Elem.mk b.tag none none
          (ra.children ++ rb.children)).children, c.tag ≠ xincludeTag) := by
  constructor
  · unfold handle_includes
    rw [includes_fold, hfilter]
    simp [resolveAll, resolveInclude, hha, hhb, hfa, hfb]
  · intro h c hc
    exact h c hc

theorem claim_C5_witness :
    handle_includes
      (fun f =>
        if f = "p/a" then
          some (Elem.mk "rootA" none none [Elem.mk "x" none none []])
        else if f = "p/b" then
          some (Elem.mk "rootB" none none [Elem.mk "y" none none []])
        else none)
      (Elem.mk "body" none none
        [Elem.mk xincludeTag (some "a") none [],
         Elem.mk xincludeTag (some "b") none []])
      "p" =
      some (.mk "body" none none
        [Elem.mk "x" none none [], Elem.mk "y" none none []])
    ∧ ∀ c ∈ [Elem.mk "x" none none [], Elem.mk "y" none none []],
        c.tag ≠ xincludeTag := by
  have h := claim_C5
    (fun f =>
      if f = "p/a" then
        some (Elem.mk "rootA" none none [Elem.mk "x" none none []])
      else if f = "p/b" then
        some (Elem.mk "rootB" none none [Elem.mk "y" none none []])
      else none)
    "p"
    (Elem.mk "body" none none
      [Elem.mk xincludeTag (some "a") none [],
       Elem.mk xincludeTag (some "b") none []])
    (Elem.mk xincludeTag (some "a") none [])
    (Elem.mk xincludeTag (some "b") none [])
    (Elem.mk "rootA" none none [Elem.mk "x" none none []])
    (Elem.mk "rootB" none none [Elem.mk "y" none none []])
    "a" "b" (by decide) rfl rfl (by decide) (by decide)
  exact ⟨h.1, h.2 (by decide)⟩

mutual

def esize : Elem → Nat
  | .mk _ _ _ cs => esizeList cs + 1

def esizeList : List Elem → Nat
  | [] => 0
  | c :: cs => esize c + esizeList cs

end

theorem esize_le_of_mem : ∀ (cs : List Elem) (c : Elem), c ∈ cs →
    esize c ≤ esizeList cs := by
  intro cs
  induction cs with
  | nil => intro c hc; cases hc
  | cons d cs ih =>
    intro c hc
    rw [esizeList]
    rcases List.mem_cons.1 hc with h | h
    · subst h; omega
    · have := ih c h; omega

theorem mem_findallDescList_of_child (T : String) :
    ∀ (cs : List Elem) (c : Elem), c ∈ cs → c.tag = T →
    c ∈ findallDescList T cs := by
  intro cs
  induction cs with
  | nil => intro c hc; cases hc
  | cons d cs ih =>
    intro c hc ht
    rw [findallDescList]
    rcases List.mem_cons.1 hc with h | h
    · subst h
      rw [if_pos ht]
      simp
    · simp [List.mem_append, ih c h ht]

theorem mem_findallDescList_of_grandchild (T : String) :
    ∀ (cs : List Elem) (s c : Elem), s ∈ cs → c ∈ s.children → c.tag = T →
    c ∈ findallDescList T cs := by
  intro cs
  induction cs with
  | nil => intro s c hs; cases hs
  | cons d cs ih =>
    intro s c hs hc ht
    rw [findallDescList]
    rcases List.mem_cons.1 hs with h | h
    · subst h
      have : c ∈ findallDesc T s := by
        obtain ⟨tg, hr, tx, cs0⟩ := s
        rw [findallDesc]
        exact mem_findallDescList_of_child T cs0 c hc ht
      simp [List.mem_append, this]
    · simp [List.mem_append, ih s c h hc ht]

theorem count_le_findallDescList (T : String) :
    ∀ (cs : List Elem) (s : Elem), s.tag = T →
    cs.count s ≤ (findallDescList T cs).count s := by
  intro cs
  induction cs with
  | nil => intro s hs; simp [findallDescList]
  | cons c cs ih =>
    intro s hs
    rw [findallDescList]
    rw [List.count_cons]
    rw [List.count_append, List.count_append]
    have hic := ih s hs
    by_cases hcs : c = s
    · subst hcs
      rw [if_pos hs]
      have h1 : List.count c [c] = 1 := by simp
      simp only [beq_self_eq_true, if_pos]
      omega
    · have h0 : (if c == s then 1 else 0) = 0 := by
        simp [beq_false_of_ne hcs]
      rw [h0]
      have h1 : 0 ≤ List.count s (if c.tag = T then [c] else []) := Nat.zero_le _
      omega

theorem findallDesc_eq_children (T : String) (e : Elem) :
    findallDesc T e = findallDescList T e.children := by
  obtain ⟨tg, hr, tx, cs⟩ := e
  rfl

/-- Claim C6: a body whose only descendant superEntry is a direct child
holding exactly two entries flattens, via `handle_super_entries`, to a
body whose children are the original children minus the superEntry with
the two entries appended at the end (not at the superEntry's original
position), and no superEntry element remains among the children. -/
theorem claim_C6 (b s e1 e2 : Elem)
    (hfind : findallDesc superEntryTag b = [s])
    (hmem : s ∈ b.children) (hch : s.children = [e1, e2]) :
    handle_super_entries b =
      some (.mk b.tag b.href b.text (b.children.erase s ++ [e1, e2]))
    ∧ ∀ c ∈ b.children.erase s ++ [e1, e2], c.tag ≠ superEntryTag := by
  obtain ⟨btag, bhr, btx, bcs⟩ := b
  have hfl : findallDescList superEntryTag bcs = [s] := by
    rw [← hfind]; rfl
  have hmem2 : s ∈ bcs := hmem
  constructor
  · obtain ⟨stag, shr, stx, scs⟩ := s
    have hscs : scs = [e1, e2] := hch
    subst hscs
    unfold handle_super_entries
    rw [hfind]
    simp only [List.foldlM_cons, List.foldlM_nil, Elem.children, Elem.tag,
      Elem.href, Elem.text]
    have hcon : ((bcs ++ [e1, e2]).contains
        (Elem.mk stag shr stx [e1, e2])) = true := by
      rw [List.contains_iff_exists_mem_beq]
      exact ⟨Elem.mk stag shr stx [e1, e2],
        List.mem_append.2 (Or.inl hmem2), by simp⟩
    rw [if_pos hcon]
    rw [List.erase_append_left [e1, e2] hmem2]
    rfl
  · intro c hc
    rcases List.mem_append.1 hc with h1 | h2
    · intro ht
      have hcmem : c ∈ bcs := List.mem_of_mem_erase h1
      have hcf : c ∈ findallDescList superEntryTag bcs :=
        mem_findallDescList_of_child _ _ c hcmem ht
      have hcs : c = s := by rw [hfl] at hcf; simpa using hcf
      subst hcs
      have hcount1 : (findallDescList superEntryTag bcs).count c = 1 := by
        rw [hfl]; simp
      have hcount2 : bcs.count c ≤ 1 := by
        have := count_le_findallDescList superEntryTag bcs c ht
        omega
      have hpos : 0 < (bcs.erase c).count c := List.count_pos_iff.2 h1
      rw [List.count_erase_self] at hpos
      omega
    · intro ht
      have hsc : c ∈ s.children := by rw [hch]; exact h2
      have hcf : c ∈ findallDescList superEntryTag bcs :=
        mem_findallDescList_of_grandchild _ _ s c hmem2 hsc ht
      have hcs : c = s := by rw [hfl] at hcf; simpa using hcf
      subst hcs
      have hle : esize c ≤ esizeList c.children := esize_le_of_mem _ _ hsc
      have heq : esize c = esizeList c.children + 1 := by
        obtain ⟨tg, hr, tx, cs0⟩ := c
        rfl
      omega

theorem claim_C6_witness :
    handle_super_entries
      (Elem.mk "body" none none
        [Elem.mk superEntryTag none none
          [Elem.mk (teiNS ++ "entry") none (some "one") [],
           Elem.mk (teiNS ++ "entry") none (some "two") []]]) =
      some (.mk "body" none none
        [Elem.mk (teiNS ++ "entry") none (some "one") [],
         Elem.mk (teiNS ++ "entry") none (some "two") []])
    ∧ ∀ c ∈ [Elem.mk (teiNS ++ "entry") none (some "one") [],
        Elem.mk (teiNS ++ "entry") none (some "two") []],
      c.tag ≠ superEntryTag := by
  have h := claim_C6
    (Elem.mk "body" none none
      [Elem.mk superEntryTag none none
        [Elem.mk (teiNS ++ "entry") none (some "one") [],
         Elem.mk (teiNS ++ "entry") none (some "two") []]])
    (Elem.mk superEntryTag none none
      [Elem.mk (teiNS ++ "entry") none (some "one") [],
       Elem.mk (teiNS ++ "entry") none (some "two") []])
    (Elem.mk (teiNS ++ "entry") none (some "one") [])
    (Elem.mk (teiNS ++ "entry") none (some "two") [])
    (by decide) (by decide) rfl
  exact ⟨h.1, h.2⟩

/-- The claim that a bare (namespace-free) tag escapes the
normalization error report is false: `remove_namespace` reports an
error for every tag lacking the TEI marker, bare or not.  The element
`<entry>` has a bare tag, yet the error flag is set. -/
theorem claim_C8_counterexample :
    teiNS.data.isPrefixOf ("entry" : String).data = false
    ∧ ("\x7b" : String).data.isPrefixOf ("entry" : String).data = false
    ∧ (remove_namespace (Elem.mk "entry" none none [])).2 = true := by
  decide

/-- Claim C8 (amended): during normalization, every element whose tag
does not carry the TEI namespace marker — whether or not the tag is
already a bare name — has a normalization error reported; the error is
non-fatal and the element is left entirely unchanged. -/
theorem claim_C8 (e : Elem) (h : teiNS.data.isPrefixOf e.tag.data = false) :
    (remove_namespace e).2 = true ∧ (remove_namespace e).1 = e := by
  obtain ⟨tg, hr, tx, cs⟩ := e
  have h2 : teiNS.data.isPrefixOf tg.data = false := h
  have h3 : ¬ (teiNS.data.isPrefixOf tg.data = true) := by rw [h2]; simp
  simp only [remove_namespace]
  rw [if_neg h3]
  exact ⟨rfl, rfl⟩

theorem claim_C8_witness :
    teiNS.data.isPrefixOf ("entry" : String).data = false
    ∧ ((remove_namespace (Elem.mk "entry" none none [])).2 = true
       ∧ (remove_namespace (Elem.mk "entry" none none [])).1 =
          Elem.mk "entry" none none []) :=
  ⟨by decide, claim_C8 (Elem.mk "entry" none none []) (by decide)⟩

/-! ### Normalization as a whole: machinery for the stripping-only and
idempotence properties of `preprocess`. -/

/-- The tag rewrite performed by `remove_namespace` on a single tag. -/
def stripNSTag (t : String) : String :=
  if teiNS.data.isPrefixOf t.data then ⟨t.data.drop teiNS.length⟩ else t

theorem remove_namespace_fst (tg : String) (hr tx : Option String)
    (cs : List Elem) :
    (remove_namespace (.mk tg hr tx cs)).1 = .mk (stripNSTag tg) hr tx cs := by
  simp only [remove_namespace, stripNSTag]
  by_cases h : teiNS.data.isPrefixOf tg.data = true
  · rw [if_pos h, if_pos h]
  · rw [if_neg h, if_neg h]

mutual

/-- Namespace stripping alone: apply the tag rewrite of
`remove_namespace` to every element of the tree, nothing else. -/
def stripAll : Elem → Elem
  | .mk tg hr tx cs => .mk (stripNSTag tg) hr tx (stripAllList cs)

def stripAllList : List Elem → List Elem
  | [] => []
  | c :: cs => stripAll c :: stripAllList cs

end

mutual

/-- Nesting depth of an element, used as sufficient fuel for
`preprocess`. -/
def edepth : Elem → Nat
  | .mk _ _ _ cs => edepthList cs + 1

def edepthList : List Elem → Nat
  | [] => 0
  | c :: cs => max (edepth c) (edepthList cs)

end

/-- A tag as produced by parsing a TEI document with no inclusion
directives and no superEntries: not the XInclude or superEntry tag, and
stable under namespace stripping (a parsed qualified name carries at
most one namespace marker, so stripping twice equals stripping once and
never uncovers a directive tag). -/
def goodTagB (t : String) : Bool :=
  (t != xincludeTag) && (t != superEntryTag) &&
  (stripNSTag t != xincludeTag) && (stripNSTag t != superEntryTag) &&
  (stripNSTag (stripNSTag t) == stripNSTag t)

mutual

/-- Every element of the tree has a good tag. -/
def goodElem : Elem → Bool
  | .mk tg _ _ cs => goodTagB tg && goodElemList cs

def goodElemList : List Elem → Bool
  | [] => true
  | c :: cs => goodElem c && goodElemList cs

end

mutual

theorem findallDesc_nil_of_good (T : String)
    (hT : T = xincludeTag ∨ T = superEntryTag) :
    ∀ (e : Elem), goodElem e = true → findallDesc T e = []
  | .mk tg hr tx cs, hg => by
    rw [findallDesc]
    have hcs : goodElemList cs = true := by
      rw [goodElem, Bool.and_eq_true] at hg
      exact hg.2
    exact findallDescList_nil_of_good T hT cs hcs

theorem findallDescList_nil_of_good (T : String)
    (hT : T = xincludeTag ∨ T = superEntryTag) :
    ∀ (cs : List Elem), goodElemList cs = true → findallDescList T cs = []
  | [], _ => rfl
  | c :: cs, hg => by
    rw [goodElemList, Bool.and_eq_true] at hg
    rw [findallDescList]
    have htag : c.tag ≠ T := by
      obtain ⟨tg, hr, tx, cs0⟩ := c
      have hgt : goodTagB tg = true := by
        have := hg.1
        rw [goodElem, Bool.and_eq_true] at this
        exact this.1
      rw [goodTagB] at hgt
      simp only [Bool.and_eq_true, bne_iff_ne, beq_iff_eq] at hgt
      show tg ≠ T
      rcases hT with h | h <;> rw [h]
      · exact hgt.1.1.1.1
      · exact hgt.1.1.1.2
    rw [if_neg htag]
    rw [findallDesc_nil_of_good T hT c hg.1,
      findallDescList_nil_of_good T hT cs hg.2]
    rfl

end

theorem goodTagB_strip (t : String) (h : goodTagB t = true) :
    goodTagB (stripNSTag t) = true := by
  rw [goodTagB] at h ⊢
  simp only [Bool.and_eq_true, bne_iff_ne, beq_iff_eq] at h ⊢
  obtain ⟨⟨⟨⟨h1, h2⟩, h3⟩, h4⟩, h5⟩
    := h
  refine ⟨⟨⟨⟨h3, h4⟩, ?_⟩, ?_⟩, ?_⟩
  · rw [h5]; exact h3
  · rw [h5]; exact h4
  · rw [h5, h5]

mutual

theorem goodElem_stripAll : ∀ (e : Elem), goodElem e = true →
    goodElem (stripAll e) = true
  | .mk tg hr tx cs, hg => by
    rw [goodElem, Bool.and_eq_true] at hg
    rw [stripAll, goodElem, Bool.and_eq_true]
    exact ⟨goodTagB_strip tg hg.1, goodElemList_stripAllList cs hg.2⟩

theorem goodElemList_stripAllList : ∀ (cs : List Elem),
    goodElemList cs = true → goodElemList (stripAllList cs) = true
  | [], _ => rfl
  | c :: cs, hg => by
    rw [goodElemList, Bool.and_eq_true] at hg
    rw [stripAllList, goodElemList, Bool.and_eq_true]
    exact ⟨goodElem_stripAll c hg.1, goodElemList_stripAllList cs hg.2⟩

end

mutual

theorem stripAll_idem : ∀ (e : Elem), goodElem e = true →
    stripAll (stripAll e) = stripAll e
  | .mk tg hr tx cs, hg => by
    rw [goodElem, Bool.and_eq_true] at hg
    rw [stripAll, stripAll]
    have ht : stripNSTag (stripNSTag tg) = stripNSTag tg := by
      have h1 := hg.1
      rw [goodTagB] at h1
      simp only [Bool.and_eq_true, bne_iff_ne, beq_iff_eq] at h1
      exact h1.2
    rw [ht, stripAllList_idem cs hg.2]

theorem stripAllList_idem : ∀ (cs : List Elem), goodElemList cs = true →
    stripAllList (stripAllList cs) = stripAllList cs
  | [], _ => rfl
  | c :: cs, hg => by
    rw [goodElemList, Bool.and_eq_true] at hg
    rw [stripAllList, stripAllList]
    rw [stripAll_idem c hg.1, stripAllList_idem cs hg.2]

end

mutual

theorem edepth_stripAll : ∀ (e : Elem), edepth (stripAll e) = edepth e
  | .mk tg hr tx cs => by
    rw [stripAll, edepth, edepth, edepthList_stripAllList cs]

theorem edepthList_stripAllList : ∀ (cs : List Elem),
    edepthList (stripAllList cs) = edepthList cs
  | [] => rfl
  | c :: cs => by
    rw [stripAllList, edepthList, edepthList, edepth_stripAll c,
      edepthList_stripAllList cs]

end

theorem edepth_le_of_mem : ∀ (cs : List Elem) (c : Elem), c ∈ cs →
    edepth c ≤ edepthList cs := by
  intro cs
  induction cs with
  | nil => intro c hc; cases hc
  | cons d cs ih =>
    intro c hc
    rw [edepthList]
    rcases List.mem_cons.1 hc with h | h
    · subst h; exact Nat.le_max_left _ _
    · exact Nat.le_trans (ih c h) (Nat.le_max_right _ _)

theorem goodElem_of_mem : ∀ (cs : List Elem), goodElemList cs = true →
    ∀ c ∈ cs, goodElem c = true := by
  intro cs
  induction cs with
  | nil => intro _ c hc; cases hc
  | cons d cs ih =>
    intro hg c hc
    rw [goodElemList, Bool.and_eq_true] at hg
    rcases List.mem_cons.1 hc with h | h
    · subst h; exact hg.1
    · exact ih hg.2 c h

theorem mapM_preprocess (fs : String → Option Elem) (path : String) (n : Nat) :
    ∀ (cs : List Elem), (∀ c ∈ cs, preprocess fs n c path = some (stripAll c)) →
    cs.mapM (fun c => preprocess fs n c path) = some (stripAllList cs)
  | [], _ => by rw [stripAllList]; rfl
  | c :: cs, h => by
    rw [List.mapM_cons, h c (List.mem_cons_self c cs),
      mapM_preprocess fs path n cs (fun d hd => h d (List.mem_cons_of_mem c hd)),
      stripAllList]
    rfl

theorem preprocess_strip (fs : String → Option Elem) (path : String) :
    ∀ (fuel : Nat) (e : Elem), goodElem e = true → edepth e ≤ fuel →
    preprocess fs fuel e path = some (stripAll e) := by
  intro fuel
  induction fuel with
  | zero =>
    intro e hg hd
    exfalso
    obtain ⟨tg, hr, tx, cs⟩ := e
    rw [edepth] at hd
    omega
  | succ n ih =>
    intro e hg hd
    obtain ⟨tg, hr, tx, cs⟩ := e
    rw [goodElem, Bool.and_eq_true] at hg
    have hgt : goodTagB (stripNSTag tg) = true := goodTagB_strip tg hg.1
    have hgood2 : goodElem (Elem.mk (stripNSTag tg) hr tx cs) = true := by
      rw [goodElem, Bool.and_eq_true]
      exact ⟨hgt, hg.2⟩
    have hfa : findallDesc xincludeTag (Elem.mk (stripNSTag tg) hr tx cs) = [] :=
      findallDesc_nil_of_good xincludeTag (Or.inl rfl) _ hgood2
    have hfs : findallDesc superEntryTag (Elem.mk (stripNSTag tg) hr tx cs) = [] :=
      findallDesc_nil_of_good superEntryTag (Or.inr rfl) _ hgood2
    have hc1 : ¬ ((Elem.mk (stripNSTag tg) hr tx cs).tag = "body" ∧
        0 < (findallDesc xincludeTag (Elem.mk (stripNSTag tg) hr tx cs)).length) := by
      intro h
      rw [hfa] at h
      exact absurd h.2 (by simp)
    have hc2 : ¬ ((Elem.mk (stripNSTag tg) hr tx cs).tag = "body" ∧
        0 < (findallDesc superEntryTag (Elem.mk (stripNSTag tg) hr tx cs)).length) := by
      intro h
      rw [hfs] at h
      exact absurd h.2 (by simp)
    have hkids : ∀ c ∈ cs, preprocess fs n c path = some (stripAll c) := by
      intro c hc
      refine ih c (goodElem_of_mem cs hg.2 c hc) ?_
      have h1 := edepth_le_of_mem cs c hc
      rw [edepth] at hd
      omega
    simp only [preprocess]
    rw [remove_namespace_fst]
    rw [if_neg hc1]
    simp only [Option.pure_def, Option.bind_eq_bind, Option.some_bind]
    rw [if_neg hc2]
    simp only [Elem.children, Elem.tag, Elem.href, Elem.text]
    rw [mapM_preprocess fs path n cs hkids]
    simp only [Option.some_bind]
    rw [stripAll]

/-- Claim C7: on a tree with no inclusion directives and no superEntry
elements (and parsed, single-marker tags — `goodElem`), normalization
has exactly the effect of namespace stripping alone, and it is
idempotent: a second run leaves the tree unchanged. -/
theorem claim_C7 (fs : String → Option Elem) (path : String) (fuel : Nat)
    (e : Elem) (hg : goodElem e = true) (hd : edepth e ≤ fuel) :
    preprocess fs fuel e path = some (stripAll e)
    ∧ (preprocess fs fuel e path).bind
        (fun x => preprocess fs fuel x path) = preprocess fs fuel e path := by
  have h1 := preprocess_strip fs path fuel e hg hd
  have h2 := preprocess_strip fs path fuel (stripAll e)
    (goodElem_stripAll e hg) (by rw [edepth_stripAll]; exact hd)
  refine ⟨h1, ?_⟩
  rw [h1, Option.some_bind, h2, stripAll_idem e hg]

set_option maxRecDepth 8192 in
theorem claim_C7_witness :
    preprocess (fun _ => none) 2
      (Elem.mk (teiNS ++ "body") none none
        [Elem.mk (teiNS ++ "entry") none none []]) "p" =
      some (Elem.mk "body" none none [Elem.mk "entry" none none []])
    ∧ (preprocess (fun _ => none) 2
        (Elem.mk (teiNS ++ "body") none none
          [Elem.mk (teiNS ++ "entry") none none []]) "p").bind
        (fun x => preprocess (fun _ => none) 2 x "p") =
      preprocess (fun _ => none) 2
        (Elem.mk (teiNS ++ "body") none none
          [Elem.mk (teiNS ++ "entry") none none []]) "p" := by
  have h := claim_C7 (fun _ => none) "p" 2
    (Elem.mk (teiNS ++ "body") none none
      [Elem.mk (teiNS ++ "entry") none none []])
    (by decide) (by decide)
  refine ⟨?_, h.2⟩
  rw [h.1]
  decide

end Freedict
